import Mathlib

/-!
Verification of the column-mapping and matching core of `mip_dmp`
(`mip_dmp/process/{mapping,matching,embedding}.py`).

Dataset cells are modelled as a tagged union of a rational number (Python
int/float), a string, and the missing-value marker (NaN).  Python floats are
modelled by rationals: every numeric literal appearing in the claims (1.0,
0.5, ...) is exactly representable, and the only numeric operations involved
(multiplication, truncation to int) are exact on these inputs.  External
capabilities (fuzzywuzzy's `fuzz.ratio`, the embedding models, scipy's cosine
distance) are injected as function parameters, following the spec's view of
them as injected capabilities.
-/

namespace MipDmp

/-- Python `s.lower()`: character-wise lower-casing (the ASCII fragment both
languages agree on). -/
def strLower (s : String) : String :=
  String.mk (s.data.map Char.toLower)

/-- A scalar cell of a dataset column: number, string, or missing (NaN). -/
inductive Value where
  | num (q : ℚ)
  | str (s : String)
  | missing
deriving DecidableEq, Repr, Inhabited

/-- Python `int(x)` applied to a float: truncation toward zero. -/
def ratTrunc (q : ℚ) : ℤ :=
  if 0 ≤ q then q.floor else q.ceil

/-- Digit-string value (helper for the Python numeric-literal parsers). -/
def charsToNat (cs : List Char) : ℕ :=
  cs.foldl (fun a c => a * 10 + (c.toNat - 48)) 0

/-- All characters are decimal digits. -/
def charsAllDigits (cs : List Char) : Bool :=
  cs.all Char.isDigit

/-- Python `float(s)` on an unsigned finite decimal literal (`"12"`, `"1."`,
`".5"`, `"3.25"`).  Exponents, `"inf"`/`"nan"` and underscores are outside the
modelled fragment and are treated as parse failures; no claim exercises them. -/
def parseUnsignedFloat (cs : List Char) : Option ℚ :=
  match cs.span (fun c => c != '.') with
  | (intPart, []) =>
    if intPart ≠ [] ∧ charsAllDigits intPart then some ((charsToNat intPart : ℚ)) else none
  | (intPart, _dot :: fracPart) =>
    if (intPart ≠ [] ∨ fracPart ≠ []) ∧ charsAllDigits intPart ∧ charsAllDigits fracPart
        ∧ ¬ fracPart.contains '.'
    then some ((charsToNat intPart : ℚ) + (charsToNat fracPart : ℚ) / (10 : ℚ) ^ fracPart.length)
    else none

/-- Python `float(s)` with an optional sign. -/
def pyFloatStr (s : String) : Option ℚ :=
  match s.toList with
  | '-' :: rest => (parseUnsignedFloat rest).map Neg.neg
  | '+' :: rest => parseUnsignedFloat rest
  | cs => parseUnsignedFloat cs

/-- Python `int(s)` on a string: only pure (optionally signed) digit strings. -/
def pyIntStr (s : String) : Option ℤ :=
  match s.toList with
  | '-' :: rest =>
    if rest ≠ [] ∧ charsAllDigits rest then some (-(charsToNat rest : ℤ)) else none
  | '+' :: rest =>
    if rest ≠ [] ∧ charsAllDigits rest then some ((charsToNat rest : ℤ)) else none
  | cs => if cs ≠ [] ∧ charsAllDigits cs then some ((charsToNat cs : ℤ)) else none

/-- Python `int(x)` on a cell (as used by `astype(int)` elementwise): numbers
truncate toward zero, strings go through the integer-literal parser, anything
else raises (`none`). -/
def pyIntOf : Value → Option ℤ
  | Value.num q => some (ratTrunc q)
  | Value.str s => pyIntStr s
  | Value.missing => none

/-- Python `float(x)` on a cell (as used by `astype(float)` elementwise). -/
def pyFloatOf : Value → Option ℚ
  | Value.num q => some q
  | Value.str s => pyFloatStr s
  | Value.missing => none

/-- `Option`-valued traversal with the left-to-right, fail-fast semantics of a
Python list comprehension whose body may raise. -/
def traverseOption (g : α → Option β) : List α → Option (List β)
  | [] => some []
  | a :: l =>
    match g a, traverseOption g l with
    | some b, some bs => some (b :: bs)
    | _, _ => none

/-!  ## `mip_dmp/process/mapping.py`  -/

/-- The string-typed `transform` field of a mapping row, in parsed form: the
sentinel string `"nan"`, a JSON/dict payload for `map` rows (entries in the
dictionary's insertion order), or a float literal for `scale` rows.  The data
model of the spec restricts `transform` to exactly these shapes. -/
inductive Transform where
  | nan
  | mapDict (entries : List (String × String))
  | scale (factor : ℚ)
deriving DecidableEq, Repr

/-- One row of the mapping table. -/
structure MappingRow where
  dataset_column : String
  cde_code : String
  cde_type : String
  transform_type : String
  transform : Transform
deriving DecidableEq, Repr

/-- First pass of `apply_transform_map`: lower-case string cells, leave the
rest unchanged (`x.lower() if isinstance(x, str) else x`). -/
def lowerCell : Value → Value
  | Value.str s => Value.str (strLower s)
  | v => v

/-- One iteration of the mapping loop of `apply_transform_map`:
`dataset_column.iloc[dataset_column == old_value] = new_value` with
`old_value = key.lower()`.  Only string cells can compare equal to the
(string) key. -/
def applyMapEntry (col : List Value) (key target : String) : List Value :=
  col.map (fun c => if c = Value.str (strLower key) then Value.str target else c)

/-- `apply_transform_map` (mapping.py lines 133-160): lower-case the string
cells, then rewrite the column once per mapping entry, in entry order, each
pass mutating the result of the previous one. -/
def apply_transform_map (col : List Value) (entries : List (String × String)) : List Value :=
  entries.foldl (fun acc e => applyMapEntry acc e.1 e.2) (col.map lowerCell)

/-- The action of the `apply_transform_map` entry loop on a single cell
(pointwise unfolding of the column-level folds, used by the proofs). -/
def mapChain (entries : List (String × String)) (v : Value) : Value :=
  entries.foldl (fun w e => if w = Value.str (strLower e.1) then Value.str e.2 else w) v

/-- `apply_transform_scale` (mapping.py lines 163-209).  If the column has no
missing value, the whole column is cast (`astype`) and scaled, and a cast
failure (`ValueError`) is caught: the column is returned unscaled.  Otherwise
the cast+scale runs elementwise in a list comprehension with **no** exception
handler, so a cast failure propagates (`Except.error`); and a `cde_type`
outside integer/real leaves `dataset_column_list` unbound (`UnboundLocalError`).
Note `int(scaling_factor)` in the integer branches: the factor is truncated. -/
def apply_transform_scale (col : List Value) (cde_code cde_type : String) (f : ℚ) :
    Except String (List Value) :=
  if Value.missing ∉ col then
    if cde_type = "integer" then
      match traverseOption pyIntOf col with
      | some ns => Except.ok (ns.map (fun n => Value.num ((n * ratTrunc f : ℤ) : ℚ)))
      | none => Except.ok col
    else if cde_type = "real" then
      match traverseOption pyFloatOf col with
      | some qs => Except.ok (qs.map (fun q => Value.num (q * f)))
      | none => Except.ok col
    else Except.ok col
  else
    if cde_type = "integer" then
      match traverseOption (fun v =>
          if v = Value.missing then some Value.missing
          else (pyFloatOf v).map (fun q => Value.num ((ratTrunc q * ratTrunc f : ℤ) : ℚ))) col with
      | some out => Except.ok out
      | none => Except.error "ValueError"
    else if cde_type = "real" then
      match traverseOption (fun v =>
          if v = Value.missing then some Value.missing
          else (pyFloatOf v).map (fun q => Value.num (q * f))) col with
      | some out => Except.ok out
      | none => Except.error "ValueError"
    else Except.error "UnboundLocalError"

/-- `transform_dataset_column` (mapping.py lines 90-130): dispatch on
`transform_type`, skipping the transform when the payload is the sentinel
`"nan"` (the column is returned unchanged, with a warning).  A payload whose
shape does not fit the branch corresponds to a Python exception at
`eval`/`float`. -/
def transform_dataset_column (col : List Value) (cde_code cde_type transform_type : String)
    (transform : Transform) : Except String (List Value) :=
  if transform_type = "map" ∧ transform ≠ Transform.nan then
    match transform with
    | Transform.mapDict entries => Except.ok (apply_transform_map col entries)
    | _ => Except.error "TypeError"
  else if transform_type = "scale" ∧ transform ≠ Transform.nan then
    match transform with
    | Transform.scale f => apply_transform_scale col cde_code cde_type f
    | _ => Except.error "ValueError"
  else Except.ok col

/-- `mapping_dict = {mapping["cde_code"]: mapping for mapping in mappings}`:
lookup returns the **last** row carrying the code (later dict insertions
overwrite earlier ones). -/
def lookupMapping (mappings : List MappingRow) (code : String) : Option MappingRow :=
  (mappings.filter (fun m => m.cde_code = code)).getLast?

/-- The `mapped_columns` collecting loop of `map_dataset` (mapping.py lines
46-83), schema-ordered: iterate the CDE codes; a code without a mapping row
yields an empty/NaN-filled column (modelled as `none`); a code whose row names
a dataset column that is present yields the transformed column; a code whose
row names an **absent** dataset column appends nothing (the
`if dataset_column in dataset.columns` test has no else branch). -/
def mapped_columns (dataset : List (String × List Value)) (mappings : List MappingRow) :
    List String → Except String (List (String × Option (List Value)))
  | [] => Except.ok []
  | code :: rest =>
    match lookupMapping mappings code with
    | some m =>
      match List.lookup m.dataset_column dataset with
      | some colData =>
        match transform_dataset_column colData m.cde_code m.cde_type m.transform_type
            m.transform with
        | Except.ok t =>
          match mapped_columns dataset mappings rest with
          | Except.ok restOut => Except.ok ((m.cde_code, some t) :: restOut)
          | Except.error e => Except.error e
        | Except.error e => Except.error e
      | none => mapped_columns dataset mappings rest
    | none =>
      match mapped_columns dataset mappings rest with
      | Except.ok restOut => Except.ok ((code, (none : Option (List Value))) :: restOut)
      | Except.error e => Except.error e

/-- `map_dataset` (mapping.py lines 27-87): run the collecting loop, then
`pd.concat(mapped_columns, axis=1)` (line 84) — which raises
`ValueError: No objects to concatenate` when the collected list is empty. -/
def map_dataset (dataset : List (String × List Value)) (mappings : List MappingRow)
    (cde_codes : List String) : Except String (List (String × Option (List Value))) :=
  match mapped_columns dataset mappings cde_codes with
  | Except.ok [] => Except.error "ValueError: No objects to concatenate"
  | Except.ok (c :: cs) => Except.ok (c :: cs)
  | Except.error e => Except.error e

/-- Well-formedness of a mapping row's type/transform fields, as stated by the
spec's data model: the transform type is `map` or `scale`; a `map` payload is a
dictionary or the sentinel; a `scale` payload is a float literal or the
sentinel, and the CDE type is numeric. -/
def WellFormedTransformRow (cde_type transform_type : String) (t : Transform) : Prop :=
  (transform_type = "map" ∨ transform_type = "scale") ∧
  (transform_type = "map" → t = Transform.nan ∨ ∃ m, t = Transform.mapDict m) ∧
  (transform_type = "scale" →
    (t = Transform.nan ∨ ∃ f, t = Transform.scale f) ∧
    (cde_type = "integer" ∨ cde_type = "real"))

/-!  ## `mip_dmp/process/matching.py` and `mip_dmp/process/embedding.py`  -/

/-- Per-column match result (`matched_cde_codes[column]`): parallel lists of
candidate CDE codes, dissimilarity scores and (optional) embedding vectors. -/
structure MatchResult where
  words : List String
  distances : List ℚ
  embeddings : List (Option (List ℚ))
deriving DecidableEq, Repr

/-- Stable insertion of `x` into a list ascending by `key`: skip the elements
with a strictly smaller key, land in front of the first element whose key is
`≥ key x`.  Elements inserted earlier by `sortAscBy` come later in the original
list, so equal keys keep their original relative order. -/
def insertAsc {α β : Type} [LinearOrder β] (key : α → β) (x : α) : List α → List α
  | [] => [x]
  | y :: ys => if key y < key x then y :: insertAsc key x ys else x :: y :: ys

/-- Stable sort, ascending by `key`.  Models both Python's `sorted` (Timsort,
stable) and — through key negation — `sorted(..., reverse=True)`; a stable sort
is determined uniquely by the key order, so any stable algorithm is a faithful
model. -/
def sortAscBy {α β : Type} [LinearOrder β] (key : α → β) : List α → List α
  | [] => []
  | x :: xs => insertAsc key x (sortAscBy key xs)

/-- `sorted(schema["code"], key=lambda c: fuzz.ratio(column, c), reverse=True)`:
stable descending by ratio = stable ascending by the negated ratio. -/
def sortDescByRatio (ratio : String → String → ℕ) (column : String) (codes : List String) :
    List String :=
  sortAscBy (fun code => -(ratio column code : ℤ)) codes

/-- The fuzzy branch of `match_columns_to_cdes` (matching.py lines 97-124), for
one dataset column: keep the `n` best-ratio codes, recompute the distances
`1 - 0.01 * fuzz.ratio(column, match)`, and fill `embeddings` with
`[None] * nb_kept_matches` (note: `n` entries, not `min n |codes|`). -/
def fuzzyMatchColumn (ratio : String → String → ℕ) (codes : List String) (column : String)
    (n : ℕ) : MatchResult :=
  let words := (sortDescByRatio ratio column codes).take n
  { words := words
    distances := words.map (fun w => 1 - (ratio column w : ℚ) / 100)
    embeddings := List.replicate n none }

/-- Result shape of `find_n_closest_embeddings`. -/
structure NClosest where
  distances : List ℚ
  embeddings : List (List ℚ)
  embedding_words : List String
deriving DecidableEq, Repr

/-- `np.argsort(ds)`: the indices `0..|ds|-1` sorted by the value they point
to.  numpy's default `kind='quicksort'` guarantees the sorted order but not
the relative order of equal values; this model picks one concrete sorting
permutation (the stable one).  The facts proved about it here (result lengths)
hold for every sorting permutation and so do not depend on this choice; no
tie-order property of it is relied on. -/
def argsortQ (ds : List ℚ) : List ℕ :=
  sortAscBy (fun i => ds.getD i 0) (List.range ds.length)

/-- `find_n_closest_embeddings` (embedding.py lines 129-170).  The cosine
distance of scipy is injected as `dist` (an external float capability); the
function computes the distances of `wordEmbedding` against every embedding,
argsorts them and keeps the first `n` distances / embeddings / words. -/
def find_n_closest_embeddings (dist : List ℚ → List ℚ → ℚ) (wordEmbedding : List ℚ)
    (embeddings : List (List ℚ)) (embedding_words : List String) (n : ℕ) : NClosest :=
  let ds := embeddings.map (dist wordEmbedding)
  let idx := (argsortQ ds).take n
  { distances := idx.map (fun i => ds.getD i 0)
    embeddings := idx.map (fun i => embeddings.getD i [])
    embedding_words := idx.map (fun i => embedding_words.getD i "") }

/-- The `matched_cde_codes` computation of `match_columns_to_cdes`
(matching.py lines 97-150), the part of the function the per-column match
results come from.  `ratio` injects `fuzz.ratio`, `embedOf` the embedding
model (`generate_embeddings` applies it word by word), `dist` scipy's cosine
distance.  In the embedding branch the schema-code embeddings are computed
once and shared by every column. -/
def matchedCdeCodes (ratio : String → String → ℕ) (embedOf : String → List ℚ)
    (dist : List ℚ → List ℚ → ℚ) (datasetColumns schemaCodes : List String) (n : ℕ)
    (method : String) : List (String × MatchResult) :=
  if method = "fuzzy" then
    datasetColumns.map (fun c => (c, fuzzyMatchColumn ratio schemaCodes c n))
  else if method = "chars2vec" ∨ method = "glove" then
    let schemaEmbeddings := schemaCodes.map embedOf
    datasetColumns.map (fun c =>
      let r := find_n_closest_embeddings dist (embedOf c) schemaEmbeddings schemaCodes n
      (c, { words := r.embedding_words
            distances := r.distances
            embeddings := r.embeddings.map some }))
  else []

/-- Position of the first occurrence of `a` in `l` (Python `list.index`-style;
used to state tie-breaking in the schema's iteration order). -/
def idxIn : List String → String → ℕ
  | [], _ => 0
  | x :: xs, a => if x = a then 0 else idxIn xs a + 1

/-!  ## `generate_initial_transform` (matching.py lines 256-330)  -/

/-- Result of `generate_initial_transform`: either the sentinel string `"nan"`
or `str({...})` of a dict — modelled structurally by the dict's entries in
insertion order (Python's `str` of a dict lists entries in that order, and is
injective on it). -/
inductive InitialTransform where
  | nanSentinel
  | dictStr (entries : List (String × String))
deriving DecidableEq, Repr

/-- Python dict insertion: an existing key keeps its position and gets the new
value, a fresh key is appended. -/
def dictInsert (l : List (String × String)) (k v : String) : List (String × String) :=
  if l.any (fun p => p.1 = k) then l.map (fun p => if p.1 = k then (k, v) else p)
  else l ++ [(k, v)]

/-- The dict built by a Python dict comprehension over `ps` (left to right). -/
def dictOfPairs (ps : List (String × String)) : List (String × String) :=
  ps.foldl (fun acc p => dictInsert acc p.1 p.2) []

/-- `generate_initial_transform` (matching.py lines 256-330), returning the
transform together with the list of warnings it prints.  Branches, in source
order: single-"nan" column (sentinel + warning), all-"nan" column (sentinel +
warning), equal cardinalities (best-ratio relabeling dict), fewer source
values (positional pairing filtered on matching "nan"-status), more source
values (everything mapped to `"nan"`, and **no** warning is printed there). -/
def generate_initial_transform (ratio : String → String → ℕ)
    (dataset_column_values cde_code_values : List String) (dataset_column : String) :
    InitialTransform × List String :=
  if dataset_column_values.length = 1 ∧ dataset_column_values.getD 0 "" = "nan"
      ∧ "nan" ∉ cde_code_values then
    (InitialTransform.nanSentinel,
      [s!"WARNING: The dataset column {dataset_column} has only one NaN value."])
  else if "nan" ∈ dataset_column_values
      ∧ dataset_column_values.count "nan" = dataset_column_values.length then
    (InitialTransform.nanSentinel,
      [s!"WARNING: The dataset column {dataset_column} has only NaN values."])
  else if dataset_column_values.length = cde_code_values.length then
    (InitialTransform.dictStr (dictOfPairs (dataset_column_values.map (fun d =>
      (d, (sortAscBy (fun c => -(ratio d c : ℤ)) cde_code_values).getD 0 "")))), [])
  else if dataset_column_values.length < cde_code_values.length then
    (InitialTransform.dictStr (dictOfPairs
      (dataset_column_values.enum.filterMap (fun p =>
        let c := cde_code_values.getD p.1 ""
        if (p.2 = "nan" ∧ c = "nan") ∨ (p.2 ≠ "nan" ∧ c ≠ "nan")
        then some (p.2, c) else none))), [])
  else
    (InitialTransform.dictStr (dictOfPairs (dataset_column_values.map (fun d => (d, "nan")))),
      [])

/-!  ## General list infrastructure  -/

theorem traverseOption_length {g : α → Option β} : ∀ {l : List α} {out : List β},
    traverseOption g l = some out → out.length = l.length
  | [], out, h => by
    simp only [traverseOption, Option.some.injEq] at h
    simp [← h]
  | a :: l, out, h => by
    simp only [traverseOption] at h
    cases hga : g a with
    | none => rw [hga] at h; exact absurd h (by simp)
    | some b =>
      rw [hga] at h
      cases hgl : traverseOption g l with
      | none => rw [hgl] at h; exact absurd h (by simp)
      | some bs =>
        rw [hgl] at h
        cases h
        simpa using traverseOption_length hgl

theorem traverseOption_getD {g : α → Option β} (d : α) (d' : β) :
    ∀ {l : List α} {out : List β}, traverseOption g l = some out →
      ∀ i, i < l.length → g (l.getD i d) = some (out.getD i d')
  | [], _, _, i, hi => absurd hi (by simp)
  | a :: l, out, h, i, hi => by
    simp only [traverseOption] at h
    cases hga : g a with
    | none => rw [hga] at h; exact absurd h (by simp)
    | some b =>
      rw [hga] at h
      cases hgl : traverseOption g l with
      | none => rw [hgl] at h; exact absurd h (by simp)
      | some bs =>
        rw [hgl] at h
        cases h
        cases i with
        | zero => simpa using hga
        | succ i => exact traverseOption_getD d d' hgl i (by simpa using hi)

theorem getD_map (f : α → β) (d : β) (d' : α) :
    ∀ (l : List α) (i : ℕ), i < l.length → (l.map f).getD i d = f (l.getD i d')
  | a :: l, 0, _ => rfl
  | a :: l, i + 1, hi => by
    simpa using getD_map f d d' l i (by simpa using hi)

theorem getD_pair_sublist (d : α) :
    ∀ (l : List α) (i j : ℕ), i < j → j < l.length →
      List.Sublist [l.getD i d, l.getD j d] l
  | x :: xs, 0, j + 1, _, hj => by
    refine List.Sublist.cons₂ x ?_
    rw [List.getD_cons_succ]
    have hj' : j < xs.length := by simpa using hj
    rw [List.getD_eq_getElem xs d hj']
    exact List.singleton_sublist.mpr (List.getElem_mem hj')
  | x :: xs, i + 1, j + 1, hij, hj => by
    rw [List.getD_cons_succ, List.getD_cons_succ]
    exact List.Sublist.cons x
      (getD_pair_sublist d xs i j (by omega) (by simpa using hj))

theorem pair_of_pairwise {R : α → α → Prop} {l : List α} (h : l.Pairwise R) (d : α)
    {i j : ℕ} (hij : i < j) (hj : j < l.length) : R (l.getD i d) (l.getD j d) := by
  have hsub := getD_pair_sublist d l i j hij hj
  have := h.sublist hsub
  simp only [List.pairwise_cons] at this
  exact this.1 _ (by simp)

theorem idxIn_lt_of_pair_sublist :
    ∀ {l : List String} {a b : String}, List.Sublist [a, b] l → l.Nodup → a ≠ b →
      idxIn l a < idxIn l b
  | x :: xs, a, b, h, hnd, hab => by
    rcases List.nodup_cons.mp hnd with ⟨hx, hxs⟩
    cases h with
    | cons _ h' =>
      have ha : a ∈ xs := (List.Sublist.subset h') (by simp)
      have hb : b ∈ xs := (List.Sublist.subset h') (by simp)
      have hxa : x ≠ a := fun e => hx (e ▸ ha)
      have hxb : x ≠ b := fun e => hx (e ▸ hb)
      simpa [idxIn, hxa, hxb] using idxIn_lt_of_pair_sublist h' hxs hab
    | cons₂ _ h' =>
      have hb : b ∈ xs := List.singleton_sublist.mp h'
      have hxb : x ≠ b := fun e => hx (e ▸ hb)
      simp [idxIn, hxb]

/-!  ## Lemmas about the stable insertion sort  -/

theorem insertAsc_perm {β : Type} [LinearOrder β] (key : α → β) (x : α) :
    ∀ (l : List α), List.Perm (insertAsc key x l) (x :: l)
  | [] => List.Perm.refl _
  | y :: ys => by
    by_cases hxy : key y < key x
    · simp only [insertAsc, if_pos hxy]
      exact ((insertAsc_perm key x ys).cons y).trans (List.Perm.swap x y ys)
    · simp [insertAsc, if_neg hxy]

theorem sortAscBy_perm {β : Type} [LinearOrder β] (key : α → β) :
    ∀ (l : List α), List.Perm (sortAscBy key l) l
  | [] => List.Perm.refl _
  | x :: xs => (insertAsc_perm key x (sortAscBy key xs)).trans ((sortAscBy_perm key xs).cons x)

theorem mem_insertAsc {β : Type} [LinearOrder β] {key : α → β} {x a : α} {l : List α} :
    a ∈ insertAsc key x l ↔ a = x ∨ a ∈ l := by
  rw [(insertAsc_perm key x l).mem_iff]; simp

theorem pairwise_insertAsc {β : Type} [LinearOrder β] (key : α → β) (x : α) :
    ∀ {l : List α}, l.Pairwise (fun a b => key a ≤ key b) →
      (insertAsc key x l).Pairwise (fun a b => key a ≤ key b)
  | [], _ => by simp [insertAsc]
  | y :: ys, h => by
    rcases List.pairwise_cons.mp h with ⟨hy, hys⟩
    by_cases hxy : key y < key x
    · simp only [insertAsc, if_pos hxy]
      refine List.pairwise_cons.mpr ⟨?_, pairwise_insertAsc key x hys⟩
      intro z hz
      rcases mem_insertAsc.mp hz with rfl | hz
      · exact le_of_lt hxy
      · exact hy z hz
    · simp only [insertAsc, if_neg hxy]
      refine List.pairwise_cons.mpr ⟨?_, h⟩
      intro z hz
      rcases List.mem_cons.mp hz with rfl | hz
      · exact not_lt.mp hxy
      · exact le_trans (not_lt.mp hxy) (hy z hz)

theorem sortAscBy_pairwise {β : Type} [LinearOrder β] (key : α → β) :
    ∀ (l : List α), (sortAscBy key l).Pairwise (fun a b => key a ≤ key b)
  | [] => List.Pairwise.nil
  | x :: xs => pairwise_insertAsc key x (sortAscBy_pairwise key xs)

theorem insertAsc_eq {β : Type} [LinearOrder β] (key : α → β) (x : α) :
    ∀ (l : List α), insertAsc key x l =
      l.takeWhile (fun y => decide (key y < key x)) ++
        x :: l.dropWhile (fun y => decide (key y < key x))
  | [] => rfl
  | y :: ys => by
    by_cases hxy : key y < key x
    · simp [insertAsc, if_pos hxy, List.takeWhile_cons, List.dropWhile_cons, hxy,
        insertAsc_eq key x ys]
    · simp [insertAsc, if_neg hxy, List.takeWhile_cons, List.dropWhile_cons, hxy]

theorem filter_insertAsc {β : Type} [LinearOrder β] [DecidableEq β] (key : α → β) (x : α)
    (l : List α) (k : β) :
    (insertAsc key x l).filter (fun a => decide (key a = k)) =
      ((x :: l).filter (fun a => decide (key a = k))) := by
  rw [insertAsc_eq]
  by_cases hk : key x = k
  · have htw : (l.takeWhile (fun y => decide (key y < key x))).filter
        (fun a => decide (key a = k)) = [] := by
      rw [List.filter_eq_nil_iff]
      intro a ha
      have := List.mem_takeWhile_imp ha
      simp only [decide_eq_true_eq] at this ⊢
      exact fun e => absurd (hk ▸ e : key a = key x) (ne_of_lt this)
    rw [List.filter_append]
    rw [htw]
    have hdw : ((x :: l.dropWhile (fun y => decide (key y < key x))).filter
        (fun a => decide (key a = k))) = x :: ((l.dropWhile (fun y => decide (key y < key x))).filter
        (fun a => decide (key a = k))) := by
      simp [List.filter_cons, hk]
    rw [hdw, List.nil_append, List.filter_cons, if_pos (by simpa using hk)]
    congr 1
    conv_rhs => rw [← List.takeWhile_append_dropWhile (p := fun y => decide (key y < key x)) (l := l)]
    rw [List.filter_append, htw, List.nil_append]
  · rw [List.filter_append, List.filter_cons, if_neg (by simpa using hk),
      ← List.filter_append, List.takeWhile_append_dropWhile, List.filter_cons,
      if_neg (by simpa using hk)]

theorem sortAscBy_filter {β : Type} [LinearOrder β] [DecidableEq β] (key : α → β) (k : β) :
    ∀ (l : List α), (sortAscBy key l).filter (fun a => decide (key a = k)) =
      l.filter (fun a => decide (key a = k))
  | [] => rfl
  | x :: xs => by
    rw [sortAscBy, filter_insertAsc, List.filter_cons, List.filter_cons,
      sortAscBy_filter key k xs]

/-!  ## Lemmas about the transform applier  -/

theorem foldl_applyMapEntry :
    ∀ (entries : List (String × String)) (f : Value → Value) (l : List Value),
      entries.foldl (fun acc e => applyMapEntry acc e.1 e.2) (l.map f) =
        l.map (fun v => mapChain entries (f v))
  | [], f, l => by simp [mapChain]
  | e :: rest, f, l => by
    have step : applyMapEntry (l.map f) e.1 e.2 =
        l.map (fun v => if f v = Value.str (strLower e.1) then Value.str e.2 else f v) := by
      simp [applyMapEntry, List.map_map]
    calc (e :: rest).foldl (fun acc e => applyMapEntry acc e.1 e.2) (l.map f)
        = rest.foldl (fun acc e => applyMapEntry acc e.1 e.2)
            (l.map (fun v => if f v = Value.str (strLower e.1) then Value.str e.2 else f v)) := by
          rw [List.foldl_cons, step]
      _ = l.map (fun v => mapChain rest
            (if f v = Value.str (strLower e.1) then Value.str e.2 else f v)) :=
          foldl_applyMapEntry rest _ l
      _ = l.map (fun v => mapChain (e :: rest) (f v)) := by
          simp only [mapChain, List.foldl_cons]

theorem apply_transform_map_eq_map (col : List Value) (entries : List (String × String)) :
    apply_transform_map col entries = col.map (fun v => mapChain entries (lowerCell v)) :=
  foldl_applyMapEntry entries lowerCell col

theorem mapChain_of_ne :
    ∀ {entries : List (String × String)} {v : Value},
      (∀ e ∈ entries, v ≠ Value.str (strLower e.1)) → mapChain entries v = v
  | [], _, _ => rfl
  | e :: rest, v, h => by
    simp only [mapChain, List.foldl_cons, if_neg (h e (by simp))]
    exact mapChain_of_ne (fun e' he' => h e' (by simp [he']))

theorem mapChain_missing (entries : List (String × String)) :
    mapChain entries Value.missing = Value.missing :=
  mapChain_of_ne (fun _ _ => by simp)

theorem mapChain_num (entries : List (String × String)) (q : ℚ) :
    mapChain entries (Value.num q) = Value.num q :=
  mapChain_of_ne (fun _ _ => by simp)

theorem mapChain_str_find :
    ∀ {entries : List (String × String)},
      (∀ e ∈ entries, ∀ e2 ∈ entries, e.2 ≠ strLower e2.1) →
      ∀ (t : String), mapChain entries (Value.str t) =
        match entries.find? (fun e => t == strLower e.1) with
        | some e => Value.str e.2
        | none => Value.str t
  | [], _, t => rfl
  | e :: rest, h, t => by
    have hrest : ∀ a ∈ rest, ∀ b ∈ rest, a.2 ≠ strLower b.1 := fun a ha b hb =>
      h a (List.mem_cons_of_mem _ ha) b (List.mem_cons_of_mem _ hb)
    by_cases ht : t = strLower e.1
    · subst ht
      have hfind : ((e :: rest).find? (fun e2 => strLower e.1 == strLower e2.1)) = some e := by
        simp [List.find?]
      rw [hfind]
      show mapChain (e :: rest) (Value.str (strLower e.1)) = Value.str e.2
      simp only [mapChain, List.foldl_cons, if_pos rfl]
      exact mapChain_of_ne (fun e' he' => by
        simpa using h e (by simp) e' (List.mem_cons_of_mem _ he'))
    · have hfind : ((e :: rest).find? (fun e2 => t == strLower e2.1)) =
          rest.find? (fun e2 => t == strLower e2.1) := by
        simp only [List.find?]
        rw [show (t == strLower e.1) = false from by simpa using ht]
      rw [hfind]
      have hstep : mapChain (e :: rest) (Value.str t) = mapChain rest (Value.str t) := by
        simp only [mapChain, List.foldl_cons]
        rw [if_neg (by simpa using ht)]
      rw [hstep]
      exact mapChain_str_find hrest t

theorem apply_transform_map_length (col : List Value) (entries : List (String × String)) :
    (apply_transform_map col entries).length = col.length := by
  rw [apply_transform_map_eq_map]; simp

theorem lookupMapping_cde_code {mappings : List MappingRow} {code : String} {m : MappingRow}
    (h : lookupMapping mappings code = some m) : m.cde_code = code := by
  have hmem : m ∈ mappings.filter (fun m => m.cde_code = code) :=
    List.mem_of_mem_getLast? h
  have := List.mem_filter.mp hmem
  simpa using this.2

theorem foldl_dictInsert_of_nodup :
    ∀ (ps acc : List (String × String)),
      (∀ p ∈ ps, ∀ q ∈ acc, p.1 ≠ q.1) → (ps.map Prod.fst).Nodup →
      ps.foldl (fun a p => dictInsert a p.1 p.2) acc = acc ++ ps
  | [], acc, _, _ => by simp
  | p :: rest, acc, hdisj, hnd => by
    have hnotin : ¬ acc.any (fun q => q.1 = p.1) := by
      simp only [List.any_eq_true, decide_eq_true_eq, not_exists, not_and]
      intro q hq
      exact fun e => hdisj p (by simp) q hq e.symm
    have step : dictInsert acc p.1 p.2 = acc ++ [p] := by
      simp only [dictInsert]
      rw [if_neg (by simpa [List.any_eq_true] using hnotin)]
    have hnd' : p.1 ∉ rest.map Prod.fst ∧ (rest.map Prod.fst).Nodup := by
      rw [List.map_cons] at hnd
      exact List.nodup_cons.mp hnd
    obtain ⟨hp, hrest⟩ := hnd'
    have := foldl_dictInsert_of_nodup rest (acc ++ [p]) (fun r hr q hq => by
      rcases List.mem_append.mp hq with hq | hq
      · exact hdisj r (by simp [hr]) q hq
      · have : q = p := by simpa using hq
        subst this
        intro e
        exact hp (e ▸ List.mem_map_of_mem Prod.fst hr)) hrest
    rw [List.foldl_cons, step, this, List.append_assoc]
    rfl

theorem dictOfPairs_of_nodup (ps : List (String × String)) (h : (ps.map Prod.fst).Nodup) :
    dictOfPairs ps = ps := by
  simpa using foldl_dictInsert_of_nodup ps [] (by simp) h

theorem traverseOption_eq_map {g : α → Option β} {f : α → β} :
    ∀ {l : List α}, (∀ a ∈ l, g a = some (f a)) → traverseOption g l = some (l.map f)
  | [], _ => rfl
  | a :: l, h => by
    have h1 : g a = some (f a) := h a (by simp)
    have h2 : traverseOption g l = some (l.map f) :=
      traverseOption_eq_map (fun b hb => h b (List.mem_cons_of_mem _ hb))
    rw [List.map_cons]
    simp only [traverseOption, h1, h2]

theorem transform_dataset_column_map_eval (col : List Value) (code ct : String)
    (m : List (String × String)) :
    transform_dataset_column col code ct "map" (Transform.mapDict m) =
      Except.ok (apply_transform_map col m) := by
  simp [transform_dataset_column]

theorem transform_dataset_column_scale_eval (col : List Value) (code ct : String) (f : ℚ) :
    transform_dataset_column col code ct "scale" (Transform.scale f) =
      apply_transform_scale col code ct f := by
  simp [transform_dataset_column]

theorem transform_dataset_column_nan_eval (col : List Value) (code ct tt : String) :
    transform_dataset_column col code ct tt Transform.nan = Except.ok col := by
  simp [transform_dataset_column]

/-!  ## Claims  -/

/-- C10: `apply_transform_map` applies the mapping entries sequentially to the
already-mutated column: with the dictionary `{"a": "b", "b": "c"}` applied to
the value `"a"`, the first entry rewrites `"a"` to `"b"` and the second entry
then rewrites that `"b"` to `"c"`, so the output `"c"` differs from the
dictionary's image `"b"` of the original value. -/
theorem C10_sequential_map :
    apply_transform_map [Value.str "a"] [("a", "b"), ("b", "c")] = [Value.str "c"] ∧
    List.lookup "a" [("a", "b"), ("b", "c")] = some "b" ∧
    Value.str "c" ≠ Value.str "b" := by
  refine ⟨rfl, rfl, by decide⟩

/-- C1, counterexample: the claim says a column value not matched by any
mapping key is left *identical to its input value*; but `apply_transform_map`
lower-cases every string cell first, so the unmatched `"X"` comes out as
`"x"`, not `"X"`. -/
theorem C1_counterexample :
    apply_transform_map [Value.str "X"] [("a", "b")] = [Value.str "x"] ∧
    Value.str "x" ≠ Value.str "X" := by
  refine ⟨rfl, by decide⟩

/-- C1, amended: provided no mapping target collides with a (lower-cased)
mapping key — without that proviso the sequential rewriting of C10 applies — a
string cell is replaced by the target of the first entry whose lower-cased key
equals the cell's lower-cased value, an unmatched string cell comes out
lower-cased (not identical to its input), and non-string cells are unchanged. -/
theorem C1_amended_map_semantics (col : List Value) (entries : List (String × String))
    (hchain : ∀ e ∈ entries, ∀ e2 ∈ entries, e.2 ≠ strLower e2.1) :
    apply_transform_map col entries = col.map (fun v =>
      match v with
      | Value.str s =>
        (match entries.find? (fun e => strLower s == strLower e.1) with
         | some e => Value.str e.2
         | none => Value.str (strLower s))
      | v => v) := by
  rw [apply_transform_map_eq_map]
  congr 1
  funext v
  cases v with
  | str s => exact mapChain_str_find hchain (strLower s)
  | num q => exact mapChain_num entries q
  | missing => exact mapChain_missing entries

/-- C1, witness: the amended statement evaluated on a concrete column. -/
theorem C1_amended_witness :
    apply_transform_map [Value.str "Foo", Value.str "A", Value.num 2] [("A", "1")] =
      [Value.str "foo", Value.str "1", Value.num 2] := by
  rw [C1_amended_map_semantics _ _ (by decide)]
  rfl

/-- C6, counterexample: the claim says a numeric cast failure on a `scale` row
is caught per column whether or not the column contains missing values; but
the missing-values branch of `apply_transform_scale` has no exception handler,
so the unparseable `"abc"` makes the whole call raise `ValueError` instead of
returning the column unscaled. -/
theorem C6_counterexample :
    apply_transform_scale [Value.str "abc", Value.missing] "colname" "integer" 1 =
      Except.error "ValueError" := rfl

/-- C6, amended: the local recovery holds only when the column has no missing
value: there the `astype` cast failure is caught, a warning is printed, and
the column is returned unscaled; with missing values present the elementwise
cast failure propagates and aborts the dataset transform. -/
theorem C6_amended_recovery (col : List Value) (code : String) (f : ℚ)
    (hmiss : Value.missing ∉ col) :
    (traverseOption pyIntOf col = none →
      apply_transform_scale col code "integer" f = Except.ok col) ∧
    (traverseOption pyFloatOf col = none →
      apply_transform_scale col code "real" f = Except.ok col) := by
  constructor <;> intro hfail <;> simp [apply_transform_scale, hmiss, hfail]

/-- C6, witness: the amended recovery evaluated on a concrete column. -/
theorem C6_amended_witness :
    apply_transform_scale [Value.str "abc"] "c" "integer" 1 = Except.ok [Value.str "abc"] :=
  (C6_amended_recovery [Value.str "abc"] "c" 1 (by decide)).1 rfl

/-- C7, counterexample: with strictly more distinct source values than domain
values, `generate_initial_transform` does return the dictionary mapping every
source value to `"nan"`, but the claim also says a warning is signalled — the
source prints nothing in that branch (the warning list is empty). -/
theorem C7_counterexample :
    generate_initial_transform (fun _ _ => 0) ["a", "b"] ["x"] "col" =
      (InitialTransform.dictStr [("a", "nan"), ("b", "nan")], ([] : List String)) := rfl

/-- C7, amended: whenever the distinct source values are strictly more
numerous than the domain values and the column is not all-`"nan"` (that case
short-circuits to the `"nan"` sentinel), the function returns the string of
the dictionary mapping every distinct source value to `"nan"`, and **no**
warning is signalled in this branch. -/
theorem C7_amended_overflow_to_nan (ratio : String → String → ℕ)
    (dvals cvals : List String) (colName : String)
    (hlen : cvals.length < dvals.length)
    (hsome : ∃ x ∈ dvals, x ≠ "nan")
    (hnd : dvals.Nodup) :
    generate_initial_transform ratio dvals cvals colName =
      (InitialTransform.dictStr (dvals.map (fun d => (d, "nan"))), []) := by
  obtain ⟨x, hx, hxne⟩ := hsome
  have g1 : ¬ (dvals.length = 1 ∧ dvals.getD 0 "" = "nan" ∧ "nan" ∉ cvals) := by
    rintro ⟨h1, h2, -⟩
    rcases List.length_eq_one.mp h1 with ⟨a, rfl⟩
    have : x = a := by simpa using hx
    exact hxne (this.trans (by simpa using h2))
  have g2 : ¬ ("nan" ∈ dvals ∧ dvals.count "nan" = dvals.length) := by
    rintro ⟨-, h2⟩
    exact hxne ((List.count_eq_length.mp h2 x hx).symm)
  have g3 : ¬ dvals.length = cvals.length := by omega
  have g4 : ¬ dvals.length < cvals.length := by omega
  rw [generate_initial_transform, if_neg g1, if_neg g2, if_neg g3, if_neg g4]
  rw [dictOfPairs_of_nodup]
  have : List.map (Prod.fst ∘ fun d => (d, "nan")) dvals = dvals :=
    List.map_congr_left (fun a _ => rfl) |>.trans (List.map_id dvals)
  rw [List.map_map, this]
  exact hnd

/-- C7, witness: the amended statement evaluated on a concrete input. -/
theorem C7_amended_witness :
    generate_initial_transform (fun _ _ => 1) ["x", "y"] ["a"] "col" =
      (InitialTransform.dictStr [("x", "nan"), ("y", "nan")], []) :=
  (C7_amended_overflow_to_nan (fun _ _ => 1) ["x", "y"] ["a"] "col" (by decide)
    ⟨"x", by decide, by decide⟩ (by decide)).trans (by rfl)

/-- C2: for every source column containing missing-value markers and every
well-formed mapping row (`scale` or `map`, sentinel or not), every output
position whose input value was missing is still missing in the column
returned by `transform_dataset_column`. -/
theorem C2_missing_propagation (col : List Value) (cde_code cde_type transform_type : String)
    (t : Transform) (hwf : WellFormedTransformRow cde_type transform_type t)
    (hmiss : Value.missing ∈ col) (out : List Value)
    (hout : transform_dataset_column col cde_code cde_type transform_type t = Except.ok out) :
    out.length = col.length ∧
      ∀ i, i < col.length → col.getD i (Value.str "") = Value.missing →
        out.getD i (Value.str "") = Value.missing := by
  obtain ⟨hty, hmap, hscale⟩ := hwf
  rcases hty with hty | hty
  · subst hty
    rcases hmap rfl with rfl | ⟨m, rfl⟩
    · have hcol : col = out := by simpa [transform_dataset_column] using hout
      subst hcol
      exact ⟨rfl, fun i _ h => h⟩
    · have hcol : apply_transform_map col m = out := by
        simpa [transform_dataset_column] using hout
      subst hcol
      refine ⟨apply_transform_map_length col m, ?_⟩
      intro i hi hmissi
      rw [apply_transform_map_eq_map,
        getD_map _ _ (Value.str "") col i hi, hmissi]
      exact mapChain_missing m
  · subst hty
    obtain ⟨hpayload, htype⟩ := hscale rfl
    rcases hpayload with rfl | ⟨f, rfl⟩
    · have hcol : col = out := by simpa [transform_dataset_column] using hout
      subst hcol
      exact ⟨rfl, fun i _ h => h⟩
    · replace hout : apply_transform_scale col cde_code cde_type f = Except.ok out := by
        simpa [transform_dataset_column] using hout
      rw [apply_transform_scale, if_neg (not_not_intro hmiss)] at hout
      rcases htype with hty2 | hty2 <;> subst hty2
      · rw [if_pos rfl] at hout
        cases htrav : traverseOption (fun v =>
            if v = Value.missing then some Value.missing
            else (pyFloatOf v).map
              (fun q => Value.num ((ratTrunc q * ratTrunc f : ℤ) : ℚ))) col with
        | none => rw [htrav] at hout; cases hout
        | some res =>
          rw [htrav] at hout
          have hres : res = out := by simpa using hout
          subst hres
          refine ⟨traverseOption_length htrav, ?_⟩
          intro i hi hmissi
          have := traverseOption_getD (Value.str "") (Value.str "") htrav i hi
          rw [hmissi] at this
          simpa using this.symm
      · rw [if_neg (by simp), if_pos rfl] at hout
        cases htrav : traverseOption (fun v =>
            if v = Value.missing then some Value.missing
            else (pyFloatOf v).map (fun q => Value.num (q * f))) col with
        | none => rw [htrav] at hout; cases hout
        | some res =>
          rw [htrav] at hout
          have hres : res = out := by simpa using hout
          subst hres
          refine ⟨traverseOption_length htrav, ?_⟩
          intro i hi hmissi
          have := traverseOption_getD (Value.str "") (Value.str "") htrav i hi
          rw [hmissi] at this
          simpa using this.symm

/-- C2, witness: the theorem applied to a concrete column with a missing
value and a `map` transform row. -/
theorem C2_witness :
    ([Value.missing, Value.num 3] : List Value).getD 0 (Value.str "") = Value.missing :=
  (C2_missing_propagation [Value.missing, Value.num 3] "c" "multinomial" "map"
    (Transform.mapDict [("x", "y")])
    ⟨Or.inl rfl, fun _ => Or.inr ⟨[("x", "y")], rfl⟩, fun hc => absurd hc (by decide)⟩
    (List.mem_cons_self _ _) [Value.missing, Value.num 3] rfl).2 0 (by decide) rfl

/-- C8: applying a `scale` transform with factor literal `"1.0"` to a fully
populated numeric column yields the original values cast to the CDE's declared
numeric type — truncation toward zero for `"integer"`, identity for `"real"` —
numerically unchanged by the scaling. -/
theorem C8_scale_identity (col : List Value) (code : String)
    (h : ∀ v ∈ col, ∃ q, v = Value.num q) :
    transform_dataset_column col code "real" "scale" (Transform.scale 1) = Except.ok col ∧
    transform_dataset_column col code "integer" "scale" (Transform.scale 1) =
      Except.ok (col.map (fun v =>
        match v with
        | Value.num q => Value.num ((ratTrunc q : ℤ) : ℚ)
        | v => v)) := by
  have hmiss : Value.missing ∉ col := fun hm => by
    rcases h _ hm with ⟨q, hq⟩; cases hq
  have htr1 : ratTrunc 1 = 1 := by
    simp only [ratTrunc, if_pos (by norm_num : (0 : ℚ) ≤ 1)]
    exact_mod_cast (Int.floor_one : ⌊(1 : ℚ)⌋ = 1)
  constructor
  · rw [transform_dataset_column_scale_eval]
    rw [apply_transform_scale, if_pos hmiss, if_neg (by simp), if_pos rfl]
    rw [traverseOption_eq_map
      (f := fun v => match v with | Value.num q => q | _ => 0)
      (fun v hv => by rcases h v hv with ⟨q, rfl⟩; rfl)]
    show Except.ok ((col.map _).map _) = _
    congr 1
    rw [List.map_map]
    refine (List.map_congr_left ?_).trans (List.map_id col)
    intro v hv
    rcases h v hv with ⟨q, rfl⟩
    simp
  · rw [transform_dataset_column_scale_eval]
    rw [apply_transform_scale, if_pos hmiss, if_pos rfl]
    rw [traverseOption_eq_map
      (f := fun v => match v with | Value.num q => ratTrunc q | _ => 0)
      (fun v hv => by rcases h v hv with ⟨q, rfl⟩; rfl)]
    show Except.ok ((col.map _).map _) = _
    congr 1
    rw [List.map_map]
    apply List.map_congr_left
    intro v hv
    rcases h v hv with ⟨q, rfl⟩
    simp [htr1]

/-- C8, witness: the scale-by-1.0 identity evaluated on a concrete integer
column. -/
theorem C8_witness :
    transform_dataset_column [Value.num 2, Value.num 7] "c" "real" "scale"
        (Transform.scale 1) = Except.ok [Value.num 2, Value.num 7] ∧
    transform_dataset_column [Value.num 2, Value.num 7] "c" "integer" "scale"
        (Transform.scale 1) =
      Except.ok [Value.num 2, Value.num 7] := by
  have h := C8_scale_identity [Value.num 2, Value.num 7] "c" (by
    intro v hv
    rcases List.mem_cons.mp hv with rfl | hv
    · exact ⟨2, rfl⟩
    · rcases List.mem_cons.mp hv with rfl | hv
      · exact ⟨7, rfl⟩
      · cases hv)
  refine ⟨h.1, h.2.trans ?_⟩
  have h2 : ratTrunc 2 = 2 := by
    simp only [ratTrunc, if_pos (by norm_num : (0 : ℚ) ≤ 2)]
    exact_mod_cast (Int.floor_intCast (α := ℚ) 2)
  have h7 : ratTrunc 7 = 7 := by
    simp only [ratTrunc, if_pos (by norm_num : (0 : ℚ) ≤ 7)]
    exact_mod_cast (Int.floor_intCast (α := ℚ) 7)
  simp [h2, h7]

/-- C9: for a `scale` row whose `cde_type` is `"integer"`, the parsed factor
is truncated by `int(scaling_factor)` before the multiplication; consequently
for every factor `0 ≤ f < 1` the effective multiplier is 0 and every
non-missing value of the column comes out as 0 (missing stays missing). -/
theorem C9_integer_truncation (col : List Value) (code : String) (f : ℚ)
    (h0 : 0 ≤ f) (h1 : f < 1)
    (hvals : ∀ v ∈ col, v = Value.missing ∨ ∃ q, v = Value.num q) :
    ratTrunc f = 0 ∧
    apply_transform_scale col code "integer" f =
      Except.ok (col.map (fun v =>
        if v = Value.missing then Value.missing else Value.num 0)) := by
  have htr : ratTrunc f = 0 := by
    simp only [ratTrunc, if_pos h0]
    exact Int.floor_eq_zero_iff.mpr (Set.mem_Ico.mpr ⟨h0, h1⟩)
  refine ⟨htr, ?_⟩
  by_cases hmiss : Value.missing ∈ col
  · rw [apply_transform_scale, if_neg (not_not_intro hmiss), if_pos rfl]
    rw [traverseOption_eq_map
      (f := fun v => if v = Value.missing then Value.missing else Value.num 0)
      (fun v hv => by
        rcases hvals v hv with rfl | ⟨q, rfl⟩
        · simp
        · simp [pyFloatOf, htr])]
  · rw [apply_transform_scale, if_pos hmiss, if_pos rfl]
    rw [traverseOption_eq_map
      (f := fun v => match v with | Value.num q => ratTrunc q | _ => 0)
      (fun v hv => by
        rcases hvals v hv with rfl | ⟨q, rfl⟩
        · exact absurd hv hmiss
        · rfl)]
    show Except.ok ((col.map _).map _) = _
    congr 1
    rw [List.map_map]
    apply List.map_congr_left
    intro v hv
    rcases hvals v hv with rfl | ⟨q, rfl⟩
    · exact absurd hv hmiss
    · simp [htr]

/-- C9, witness: scaling an integer column by 0.5 zeroes the non-missing
entries and keeps the missing one. -/
theorem C9_witness :
    ratTrunc ((1 : ℚ) / 2) = 0 ∧
    apply_transform_scale [Value.num 5, Value.missing] "c" "integer" ((1 : ℚ) / 2) =
      Except.ok [Value.num 0, Value.missing] := by
  have h := C9_integer_truncation [Value.num 5, Value.missing] "c" ((1 : ℚ) / 2)
    (by norm_num) (by norm_num) (by
      intro v hv
      rcases List.mem_cons.mp hv with rfl | hv
      · exact Or.inr ⟨5, rfl⟩
      · rcases List.mem_cons.mp hv with rfl | hv
        · exact Or.inl rfl
        · cases hv)
  exact ⟨h.1, h.2.trans (by rfl)⟩

/-- C3, counterexample: the claim says every schema code appears in the output
of schema-ordered `map_dataset`, a code whose mapping row names an absent
source column being filled empty; but the source appends nothing in that case
(the `if dataset_column in dataset.columns` has no else branch): here `"c"`
(mapped to the absent column `"b"`) is simply absent from the returned output,
which only holds the column for `"d"`. -/
theorem C3_counterexample :
    map_dataset [("a", [Value.num 1])]
      [{ dataset_column := "b", cde_code := "c", cde_type := "integer",
         transform_type := "scale", transform := Transform.nan },
       { dataset_column := "a", cde_code := "d", cde_type := "integer",
         transform_type := "scale", transform := Transform.nan }] ["c", "d"] =
      Except.ok [("d", some [Value.num 1])] ∧
    ∀ p ∈ ([("d", some [Value.num 1])] : List (String × Option (List Value))),
      p.1 ≠ "c" :=
  ⟨rfl, by decide⟩

theorem mapped_columns_spec (dataset : List (String × List Value))
    (mappings : List MappingRow) :
    ∀ (cde_codes : List String) (out : List (String × Option (List Value))),
      mapped_columns dataset mappings cde_codes = Except.ok out →
      out.map Prod.fst = cde_codes.filter (fun code =>
        match lookupMapping mappings code with
        | none => true
        | some m => (List.lookup m.dataset_column dataset).isSome) ∧
      ∀ code ∈ cde_codes, lookupMapping mappings code = none →
        (code, (none : Option (List Value))) ∈ out
  | [], out, h => by
    have hnil : ([] : List (String × Option (List Value))) = out := by
      simpa [mapped_columns] using h
    subst hnil
    exact ⟨rfl, by simp⟩
  | code :: rest, out, h => by
    simp only [mapped_columns] at h
    cases hm : lookupMapping mappings code with
    | some m =>
      simp only [hm] at h
      cases hl : List.lookup m.dataset_column dataset with
      | some colData =>
        simp only [hl] at h
        cases ht : transform_dataset_column colData m.cde_code m.cde_type
            m.transform_type m.transform with
        | error e => simp only [ht] at h; cases h
        | ok tval =>
          simp only [ht] at h
          cases hr : mapped_columns dataset mappings rest with
          | error e => simp only [hr] at h; cases h
          | ok restOut =>
            simp only [hr] at h
            have hout : (m.cde_code, some tval) :: restOut = out := by simpa using h
            subst hout
            obtain ⟨ih1, ih2⟩ := mapped_columns_spec dataset mappings rest restOut hr
            have hp : (match lookupMapping mappings code with
                | none => true
                | some m => (List.lookup m.dataset_column dataset).isSome) = true := by
              simp [hm, hl]
            constructor
            · rw [List.filter_cons, hp, List.map_cons, ih1, lookupMapping_cde_code hm]
              simp
            · intro code2 hc2 hnone
              rcases List.mem_cons.mp hc2 with rfl | h2
              · rw [hnone] at hm; cases hm
              · exact List.mem_cons_of_mem _ (ih2 code2 h2 hnone)
      | none =>
        simp only [hl] at h
        obtain ⟨ih1, ih2⟩ := mapped_columns_spec dataset mappings rest out h
        have hp : (match lookupMapping mappings code with
            | none => true
            | some m => (List.lookup m.dataset_column dataset).isSome) = false := by
          simp [hm, hl]
        constructor
        · rw [List.filter_cons, hp]
          simpa using ih1
        · intro code2 hc2 hnone
          rcases List.mem_cons.mp hc2 with rfl | h2
          · rw [hnone] at hm; cases hm
          · exact ih2 code2 h2 hnone
    | none =>
      simp only [hm] at h
      cases hr : mapped_columns dataset mappings rest with
      | error e => simp only [hr] at h; cases h
      | ok restOut =>
        simp only [hr] at h
        have hout : (code, (none : Option (List Value))) :: restOut = out := by
          simpa using h
        subst hout
        obtain ⟨ih1, ih2⟩ := mapped_columns_spec dataset mappings rest restOut hr
        have hp : (match lookupMapping mappings code with
            | none => true
            | some m => (List.lookup m.dataset_column dataset).isSome) = true := by
          simp [hm]
        constructor
        · rw [List.filter_cons, hp, List.map_cons, ih1]
          simp
        · intro code2 hc2 hnone
          rcases List.mem_cons.mp hc2 with rfl | h2
          · exact List.mem_cons_self _ _
          · exact List.mem_cons_of_mem _ (ih2 code2 h2 hnone)

/-- C3, amended: whenever schema-ordered `map_dataset` returns an output (the
`pd.concat` on an empty collected list raises instead), the output contains
one column per schema code that either has no mapping row (an empty/all-missing
column) or whose mapping row names a source column present in the dataset (the
transformed column); a code whose mapping row names an absent source column is
omitted from the output rather than filled empty. -/
theorem C3_amended_schema_ordered (dataset : List (String × List Value))
    (mappings : List MappingRow) (cde_codes : List String)
    (out : List (String × Option (List Value)))
    (h : map_dataset dataset mappings cde_codes = Except.ok out) :
    out.map Prod.fst = cde_codes.filter (fun code =>
      match lookupMapping mappings code with
      | none => true
      | some m => (List.lookup m.dataset_column dataset).isSome) ∧
    ∀ code ∈ cde_codes, lookupMapping mappings code = none →
      (code, (none : Option (List Value))) ∈ out := by
  rw [map_dataset] at h
  cases hw : mapped_columns dataset mappings cde_codes with
  | error e => simp only [hw] at h; cases h
  | ok cols =>
    cases cols with
    | nil => simp only [hw] at h; cases h
    | cons c cs =>
      simp only [hw] at h
      have hout : c :: cs = out := by simpa using h
      subst hout
      exact mapped_columns_spec dataset mappings cde_codes _ hw

/-- C3, witness: the amended characterisation applied to a concrete dataset
where code `"c"` has a row naming an absent column (omitted), `"d"` has a row
naming a present column (transformed), and `"e"` has no row (filled empty). -/
theorem C3_amended_witness :
    ("e", (none : Option (List Value))) ∈
      ([("d", some [Value.num 1]), ("e", none)] :
        List (String × Option (List Value))) :=
  (C3_amended_schema_ordered [("a", [Value.num 1])]
    [{ dataset_column := "b", cde_code := "c", cde_type := "integer",
       transform_type := "scale", transform := Transform.nan },
     { dataset_column := "a", cde_code := "d", cde_type := "integer",
       transform_type := "scale", transform := Transform.nan }]
    ["c", "d", "e"] [("d", some [Value.num 1]), ("e", none)] rfl).2 "e"
    (by decide) rfl

/-- C4, counterexample: for fuzzy matching with a schema of 1 code and
`topK = 2`, `words` and `distances` have length `min 2 1 = 1` but
`embeddings = [None] * nb_kept_matches` has length 2, so the three lists are
not all of length `min(topK, number of schema codes)` as claimed. -/
theorem C4_counterexample :
    matchedCdeCodes (fun _ _ => 0) (fun _ => []) (fun _ _ => 0) ["a"] ["ab"] 2 "fuzzy" =
      [("a", fuzzyMatchColumn (fun _ _ => 0) ["ab"] "a" 2)] ∧
    (fuzzyMatchColumn (fun _ _ => 0) ["ab"] "a" 2).words.length = 1 ∧
    (fuzzyMatchColumn (fun _ _ => 0) ["ab"] "a" 2).distances.length = 1 ∧
    (fuzzyMatchColumn (fun _ _ => 0) ["ab"] "a" 2).embeddings.length = 2 ∧
    (2 : ℕ) ≠ min 2 1 :=
  ⟨rfl, rfl, rfl, rfl, by decide⟩

/-- C4, amended: in every per-column result of `match_columns_to_cdes`,
`len(words) = len(distances) = min(topK, number of schema codes)`; the
embeddings list has that same length in the embedding modes, but in fuzzy mode
its length is `topK` itself (`[None] * nb_kept_matches`), which exceeds the
other two when the schema has fewer codes than `topK`. -/
theorem C4_amended_cardinality (ratio : String → String → ℕ) (embedOf : String → List ℚ)
    (dist : List ℚ → List ℚ → ℚ) (cols codes : List String) (n : ℕ) (method : String)
    (c : String) (r : MatchResult)
    (hr : (c, r) ∈ matchedCdeCodes ratio embedOf dist cols codes n method) :
    r.words.length = min n codes.length ∧
    r.distances.length = min n codes.length ∧
    (method = "fuzzy" → r.embeddings.length = n) ∧
    (method ≠ "fuzzy" → r.embeddings.length = min n codes.length) := by
  rw [matchedCdeCodes] at hr
  by_cases hm : method = "fuzzy"
  · rw [if_pos hm] at hr
    rcases List.mem_map.mp hr with ⟨c2, -, heq⟩
    cases heq
    have hw : (fuzzyMatchColumn ratio codes c n).words.length = min n codes.length := by
      show ((sortDescByRatio ratio c codes).take n).length = _
      rw [List.length_take, sortDescByRatio, (sortAscBy_perm _ codes).length_eq]
    refine ⟨hw, ?_, fun _ => ?_, fun hne => absurd hm hne⟩
    · show (((sortDescByRatio ratio c codes).take n).map _).length = _
      rw [List.length_map]
      exact hw
    · show (List.replicate n (none : Option (List ℚ))).length = n
      exact List.length_replicate n none
  · rw [if_neg hm] at hr
    by_cases hm2 : method = "chars2vec" ∨ method = "glove"
    · rw [if_pos hm2] at hr
      rcases List.mem_map.mp hr with ⟨c2, -, heq⟩
      cases heq
      have hidx : ((argsortQ ((codes.map embedOf).map (dist (embedOf c)))).take n).length =
          min n codes.length := by
        rw [List.length_take, argsortQ, (sortAscBy_perm _ _).length_eq]
        simp
      refine ⟨?_, ?_, fun hf => absurd hf hm, fun _ => ?_⟩ <;>
        simpa [find_n_closest_embeddings] using hidx
    · rw [if_neg hm2] at hr
      cases hr

/-- C4, witness: the amended cardinality facts evaluated on a concrete fuzzy
match. -/
theorem C4_amended_witness :
    (fuzzyMatchColumn (fun _ _ => 0) ["ab", "cd"] "a" 1).words.length = min 1 2 :=
  (C4_amended_cardinality (fun _ _ => 0) (fun _ => []) (fun _ _ => 0) ["a"] ["ab", "cd"] 1
    "fuzzy" "a" (fuzzyMatchColumn (fun _ _ => 0) ["ab", "cd"] "a" 1)
    (by simp [matchedCdeCodes])).1

theorem take_sort_pair_sublist {β : Type} [LinearOrder β] [DecidableEq β] (key : α → β)
    (l : List α) (n : ℕ) (d : α) {i j : ℕ} (hij : i < j)
    (hj : j < ((sortAscBy key l).take n).length)
    (hkey : key (((sortAscBy key l).take n).getD i d) =
      key (((sortAscBy key l).take n).getD j d)) :
    List.Sublist [((sortAscBy key l).take n).getD i d,
      ((sortAscBy key l).take n).getD j d] l := by
  set out := (sortAscBy key l).take n with hout
  set a := out.getD i d with ha
  set b := out.getD j d with hb
  have hpair : List.Sublist [a, b] out := getD_pair_sublist d out i j hij hj
  have hsub : List.Sublist [a, b] (sortAscBy key l) :=
    hpair.trans (List.take_sublist n _)
  have hfilter : List.Sublist ([a, b].filter (fun x => decide (key x = key a)))
      ((sortAscBy key l).filter (fun x => decide (key x = key a))) :=
    hsub.filter _
  rw [sortAscBy_filter] at hfilter
  have hba : key b = key a := hkey.symm
  have hall : [a, b].filter (fun x => decide (key x = key a)) = [a, b] := by
    simp [List.filter_cons, hba]
  rw [hall] at hfilter
  exact hfilter.trans (List.filter_sublist l)

theorem fuzzy_rank_invariant (ratio : String → String → ℕ) (codes : List String)
    (c : String) (n : ℕ) (hnd : codes.Nodup) :
    (∀ i, i + 1 < (fuzzyMatchColumn ratio codes c n).distances.length →
      (fuzzyMatchColumn ratio codes c n).distances.getD i 0 ≤
        (fuzzyMatchColumn ratio codes c n).distances.getD (i + 1) 0) ∧
    (∀ i j, i < j → j < (fuzzyMatchColumn ratio codes c n).words.length →
      (fuzzyMatchColumn ratio codes c n).distances.getD i 0 =
        (fuzzyMatchColumn ratio codes c n).distances.getD j 0 →
      idxIn codes ((fuzzyMatchColumn ratio codes c n).words.getD i "") <
        idxIn codes ((fuzzyMatchColumn ratio codes c n).words.getD j "")) := by
  have hw : (fuzzyMatchColumn ratio codes c n).words =
      (sortAscBy (fun w => -(ratio c w : ℤ)) codes).take n := rfl
  have hd : (fuzzyMatchColumn ratio codes c n).distances =
      ((sortAscBy (fun w => -(ratio c w : ℤ)) codes).take n).map
        (fun w => 1 - (ratio c w : ℚ) / 100) := rfl
  have hlen : (fuzzyMatchColumn ratio codes c n).distances.length =
      ((sortAscBy (fun w => -(ratio c w : ℤ)) codes).take n).length := by
    rw [hd, List.length_map]
  have hpw : ((sortAscBy (fun w => -(ratio c w : ℤ)) codes).take n).Pairwise
      (fun a b => (fun w => -(ratio c w : ℤ)) a ≤ (fun w => -(ratio c w : ℤ)) b) :=
    (sortAscBy_pairwise _ codes).sublist (List.take_sublist n _)
  constructor
  · intro i hi
    rw [hlen] at hi
    rw [hd, getD_map _ _ "" _ i (by omega), getD_map _ _ "" _ (i + 1) hi]
    have hkey := pair_of_pairwise hpw "" (Nat.lt_succ_self i) hi
    simp only [neg_le_neg_iff] at hkey
    have hc : ((ratio c (((sortAscBy (fun w => -(ratio c w : ℤ)) codes).take n).getD (i + 1) "")
        : ℚ)) ≤ ((ratio c (((sortAscBy (fun w => -(ratio c w : ℤ)) codes).take n).getD i "")
        : ℚ)) := by
      exact_mod_cast hkey
    linarith
  · intro i j hij hj hdeq
    rw [hw] at hj
    rw [hd, getD_map _ _ "" _ i (by omega), getD_map _ _ "" _ j hj] at hdeq
    have hr : (ratio c (((sortAscBy (fun w => -(ratio c w : ℤ)) codes).take n).getD i "") : ℚ) =
        (ratio c (((sortAscBy (fun w => -(ratio c w : ℤ)) codes).take n).getD j "") : ℚ) := by
      linarith
    have hkey : (fun w => -(ratio c w : ℤ))
          (((sortAscBy (fun w => -(ratio c w : ℤ)) codes).take n).getD i "") =
        (fun w => -(ratio c w : ℤ))
          (((sortAscBy (fun w => -(ratio c w : ℤ)) codes).take n).getD j "") := by
      have : (ratio c (((sortAscBy (fun w => -(ratio c w : ℤ)) codes).take n).getD i "")) =
          (ratio c (((sortAscBy (fun w => -(ratio c w : ℤ)) codes).take n).getD j "")) := by
        exact_mod_cast hr
      exact congrArg (fun k : ℕ => -(k : ℤ)) this
    have hsub := take_sort_pair_sublist (fun w => -(ratio c w : ℤ)) codes n "" hij hj hkey
    have hndtake : ((sortAscBy (fun w => -(ratio c w : ℤ)) codes).take n).Nodup :=
      List.Nodup.sublist (List.take_sublist n _)
        (((sortAscBy_perm _ codes).symm).nodup hnd)
    have hne := pair_of_pairwise hndtake "" hij hj
    rw [hw]
    exact idxIn_lt_of_pair_sublist hsub hnd hne

end MipDmp
